import Mathlib

/-!
Verification of the github-issue-manager core against its specification.

The Go sources are shallowly embedded:
* `Issue` and `SortIssuesByDependency` follow `pkg/issuemanager/issuemanager.go`;
* the synchronizer loop `CreateIssues` follows `pkg/github/github.go`, with the
  remote GraphQL collaborator abstracted as an oracle (`Env`) and the file
  system as an association list from paths to contents;
* the front-matter reader follows `pkg/mdparser` and `ReadIssueFiles`.

The Go string primitives (`strings.TrimSpace`, `strings.ToLower`,
`strings.Split`, `strings.Join`, `strings.HasPrefix`, `strings.SplitN`,
`strings.Trim`) are modelled by structural recursion over the character lists
underlying `String`, so every definition evaluates by kernel reduction.

Go's `for` loops with `break`/`continue` become structural recursions; the
outer resolution loops of the sorter, which Go runs until stagnation, are given
an explicit pass budget (`fuel`) and we prove that `remaining.length` passes
always suffice, which is exactly the termination argument of the source.
-/

namespace GIM

/-! ### String primitives -/

/-- Whitespace for the purposes of `strings.TrimSpace` (ASCII part). -/
def isSpaceChar (c : Char) : Bool :=
  c == ' ' || c == '\t' || c == '\n' || c == '\r'

/-- `strings.TrimSpace`. -/
def strTrim (s : String) : String :=
  ⟨((s.data.dropWhile isSpaceChar).reverse.dropWhile isSpaceChar).reverse⟩

/-- `strings.ToLower` (ASCII case mapping). -/
def strLower (s : String) : String := ⟨s.data.map Char.toLower⟩

/-- Character-list core of `strings.HasPrefix`. -/
def beginsWithChars : List Char → List Char → Bool
  | [], _ => true
  | _ :: _, [] => false
  | p :: ps, c :: cs => p == c && beginsWithChars ps cs

/-- `strings.HasPrefix s pre`. -/
def beginsWith (s pre : String) : Bool := beginsWithChars pre.data s.data

/-- Character-list core of `strings.Split` on a one-character separator. -/
def splitChar (sep : Char) : List Char → List (List Char)
  | [] => [[]]
  | c :: cs =>
    let r := splitChar sep cs
    if c == sep then [] :: r
    else
      match r with
      | [] => [[c]]
      | h :: t => (c :: h) :: t

/-- `strings.Split s "\n"`. -/
def strLines (s : String) : List String :=
  (splitChar '\n' s.data).map (fun l => (⟨l⟩ : String))

/-- Character-list core of `strings.Join` with a one-character separator. -/
def joinChar (sep : Char) : List (List Char) → List Char
  | [] => []
  | [l] => l
  | l :: ls => l ++ sep :: joinChar sep ls

/-- `strings.Join ls "\n"`. -/
def strUnlines (ls : List String) : String :=
  ⟨joinChar '\n' (ls.map (fun s => s.data))⟩

/-- First-occurrence split, the core of `strings.SplitN s sep 2`:
`none` when the separator does not occur (SplitN then returns one part). -/
def splitOnceChar (sep : Char) : List Char → Option (List Char × List Char)
  | [] => none
  | c :: cs =>
    if c == sep then some ([], cs)
    else (splitOnceChar sep cs).map (fun p => (c :: p.1, p.2))

/-- `strings.Trim s "\""`: strip leading and trailing double quotes. -/
def trimQuotes (s : String) : String :=
  ⟨((s.data.dropWhile (fun c => c == '"')).reverse.dropWhile (fun c => c == '"')).reverse⟩

/-! ### The issue model and the dependency sorter (`pkg/issuemanager`) -/

/-- `Issue` mirrors the struct of `pkg/issuemanager/issuemanager.go`. -/
structure Issue where
  path : String
  fileName : String
  title : String
  body : String
  labels : List String
  type : String
  id : String
  project : String
  parent : String
deriving DecidableEq, Repr, Inhabited

/-- Normalisation used by every comparison in the source:
`strings.EqualFold(strings.TrimSpace a, strings.TrimSpace b)` is modelled as
equality of trimmed, lower-cased strings. -/
def normKey (s : String) : String := strLower (strTrim s)

/-- `strings.EqualFold(strings.TrimSpace(issue.Type), "epic")`. -/
def isEpic (i : Issue) : Bool := normKey i.type == "epic"

/-- `strings.TrimSpace(issue.Parent) != ""`: the issue declares a parent. -/
def hasParentRef (i : Issue) : Bool := !(strTrim i.parent == "")

/-- The title-matches-parent test of the inner scan of the sorter. -/
def titleMatchesParent (s i : Issue) : Bool := normKey s.title == normKey i.parent

/-- "Check if parent is already in sorted list" (linear scan with break). -/
def parentIn (sorted : List Issue) (i : Issue) : Bool :=
  sorted.any (fun s => titleMatchesParent s i)

/-- Result of one pass of a resolution loop of `SortIssuesByDependency`. -/
structure Pass where
  sorted : List Issue
  still : List Issue
  added : Bool
deriving DecidableEq, Repr

/-- One pass of the loop body at issuemanager.go:99-116 (and 150-167): scan the
remaining issues in order, appending to `sorted` each issue whose parent is
already there (note `sorted` grows during the pass, as in the source), and
collecting the rest into `still`; `added` records `addedInThisIteration`. -/
def onePass : List Issue → List Issue → Pass
  | sorted, [] => ⟨sorted, [], false⟩
  | sorted, i :: rest =>
    if parentIn sorted i then
      let p := onePass (sorted ++ [i]) rest
      ⟨p.sorted, p.still, true⟩
    else
      let p := onePass sorted rest
      ⟨p.sorted, i :: p.still, p.added⟩

/-- The outer loop at issuemanager.go:95-131 (and 146-181): repeat passes while
progress is made; on a pass with no progress flush the stragglers (orphans) in
their current order and stop.  `fuel` bounds the number of passes; the source
loop has no bound, and the fuel-sufficiency theorem below shows that
`remaining.length` passes are always enough, so the two agree. -/
def resolveLoop : Nat → List Issue → List Issue → List Issue
  | _, sorted, [] => sorted
  | 0, sorted, i :: rest => sorted ++ i :: rest
  | fuel + 1, sorted, i :: rest =>
    let p := onePass sorted (i :: rest)
    if p.added then resolveLoop fuel p.sorted p.still
    else p.sorted ++ p.still

/-- The unbounded source loop: run with the always-sufficient pass budget. -/
def resolveAll (sorted remaining : List Issue) : List Issue :=
  resolveLoop remaining.length sorted remaining

/-- `SortIssuesByDependency` (issuemanager.go:70-184): split epics from regular
issues, seed with parentless regular issues, iteratively resolve the rest,
then do the same for the epics appended after everything else. -/
def SortIssuesByDependency (issues : List Issue) : List Issue :=
  let epicIssues := issues.filter (fun i => isEpic i)
  let regularIssues := issues.filter (fun i => !isEpic i)
  let rootRegulars := regularIssues.filter (fun i => !hasParentRef i)
  let remRegulars := regularIssues.filter (fun i => hasParentRef i)
  let afterRegular := resolveAll rootRegulars remRegulars
  let withEpicRoots := afterRegular ++ epicIssues.filter (fun e => !hasParentRef e)
  resolveAll withEpicRoots (epicIssues.filter (fun e => hasParentRef e))

/-- A blank issue used to build concrete test inputs. -/
def blankIssue : Issue :=
  { path := "", fileName := "", title := "", body := "", labels := []
    type := "", id := "", project := "", parent := "" }

/-! ### Order predicates about the sorter output -/

/-- Every issue that declares a parent sits strictly after every issue whose
(normalised) title matches the declared parent title. -/
def ChildAfterParents (l : List Issue) : Prop :=
  ∀ p q : Fin l.length, hasParentRef (l.get p) = true →
    normKey (l.get q).title = normKey (l.get p).parent → (q : Nat) < (p : Nat)

/-- Every issue that declares a parent is preceded by some title match; this is
the invariant the resolution loops establish position by position. -/
def OkOrder (l : List Issue) : Prop :=
  ∀ p : Fin l.length, hasParentRef (l.get p) = true →
    parentIn (l.take (p : Nat)) (l.get p) = true

/-- Acyclicity of the parent-reference graph, expressed as the existence of a
topological rank: parents rank strictly below their children. -/
def HasParentRank (issues : List Issue) : Prop :=
  ∃ rank : Issue → Nat, ∀ i ∈ issues, ∀ j ∈ issues,
    hasParentRef i = true → normKey j.title = normKey i.parent → rank j < rank i

/-- Every declared parent has a title match inside the collection. -/
def ParentClosed (issues : List Issue) : Prop :=
  ∀ i ∈ issues, hasParentRef i = true →
    ∃ j ∈ issues, normKey j.title = normKey i.parent

/-- No non-epic issue declares an epic-typed parent. -/
def NoEpicParentOfRegular (issues : List Issue) : Prop :=
  ∀ i ∈ issues, ∀ j ∈ issues, hasParentRef i = true →
    normKey j.title = normKey i.parent → isEpic j = true → isEpic i = true

/-- Normalised titles are pairwise distinct. -/
def TitlesNodup (issues : List Issue) : Prop :=
  (issues.map (fun i => normKey i.title)).Nodup

/-! ### Front-matter parsing (`pkg/mdparser`) and the collection builder -/

/-- Front matter as the Go `map[string]string`: an association list in which
assignment replaces the binding of an existing key. -/
def setFM (fm : List (String × String)) (k v : String) : List (String × String) :=
  if fm.any (fun e => e.1 == k) then fm.map (fun e => if e.1 == k then (k, v) else e)
  else fm ++ [(k, v)]

/-- `value, ok := m[k]` of the Go map. -/
def lookupFM (fm : List (String × String)) (k : String) : Option String :=
  (fm.find? (fun e => e.1 == k)).map (fun e => e.2)

/-- `m[k]` of the Go map: zero value `""` for a missing key. -/
def getFM (fm : List (String × String)) (k : String) : String :=
  (lookupFM fm k).getD ""

/-- State of the line loop of `mdparser.ParseFrontMatter`. -/
structure PState where
  fm : List (String × String)
  inBlock : Bool
  bodyLines : List String

/-- One iteration of the loop of `ParseFrontMatter` (part of `pkg/mdparser`):
trim the line, toggle the block at `---`, collect `key: value` pairs inside the
block and non-block lines into the body. -/
def parseStep (st : PState) (rawLine : String) : PState :=
  let line := strTrim rawLine
  if line == "---" then { st with inBlock := !st.inBlock }
  else if st.inBlock && !(line == "") then
    match splitOnceChar ':' line.data with
    | some kv =>
      { st with fm := setFM st.fm (strTrim ⟨kv.1⟩) (trimQuotes (strTrim ⟨kv.2⟩)) }
    | none => st
  else if !st.inBlock then { st with bodyLines := st.bodyLines ++ [line] }
  else st

/-- `mdparser.ParseFrontMatter` applied to a file's content (the file-read
error path is outside this model: contents are given directly). -/
def parseFrontMatter (content : String) : List (String × String) :=
  let st := (strLines content).foldl parseStep ⟨[], false, []⟩
  setFM st.fm "body" (strUnlines st.bodyLines)

/-- The label field split of `ReadIssueFiles`: comma-separated, trimmed,
empty entries dropped. -/
def parseLabels : Option String → List String
  | none => []
  | some s =>
    (((splitChar ',' s.data).map (fun l => strTrim ⟨l⟩)).filter (fun t => !(t == "")))

/-- `issuemanager.ReadIssueFiles`: one `Issue` per plain file of the directory,
fields taken from the front matter.  `entries` is the directory listing as
(file name, content) pairs. -/
def readIssueFiles (dir : String) (entries : List (String × String)) : List Issue :=
  entries.map (fun e =>
    let fm := parseFrontMatter e.2
    { path := dir, fileName := e.1,
      title := getFM fm "title", body := getFM fm "body",
      labels := parseLabels (lookupFM fm "labels"),
      type := getFM fm "type", project := getFM fm "project",
      parent := getFM fm "parent", id := getFM fm "id" })

/-! ### The synchronizer (`pkg/github.CreateIssues`) -/

/-- `github.IssueResult`. -/
structure IssueResult where
  number : Int
  nodeID : String
  err : Option String
deriving DecidableEq, Repr, Inhabited

/-- The remote GraphQL collaborator, abstracted as an oracle: each operation of
`pkg/github` consumed by `CreateIssues` is a function of its request. -/
structure Env where
  createTyped : Issue → IssueResult
  createUntyped : Issue → IssueResult
  updateTyped : Issue → Int → IssueResult
  updateUntyped : Issue → Int → IssueResult
  resolveIssueNode : Int → Except String String
  resolveProject : String → Except String String
  addToProject : String → String → Option String

/-- Observable actions of one run of the synchronizer loop. -/
inductive Event where
  | createTypedCall (i : Issue) (r : IssueResult)
  | createUntypedCall (i : Issue) (r : IssueResult)
  | updateTypedCall (i : Issue) (n : Int) (r : IssueResult)
  | updateUntypedCall (i : Issue) (n : Int) (r : IssueResult)
  | idParseError (i : Issue)
  | readError (p : String)
  | fileWrite (p : String) (content : String)
  | resolveNodeError (msg : String)
  | resolveProjectError (msg : String)
  | linkRequest (issueNodeID : String) (projectNodeID : String)
  | linkError (msg : String)
deriving DecidableEq, Repr

/-- A creation operation (typed or untyped) was invoked. -/
def isCreateEvent : Event → Bool
  | Event.createTypedCall _ _ => true
  | Event.createUntypedCall _ _ => true
  | _ => false

/-- An update operation (typed or untyped) was invoked. -/
def isUpdateEvent : Event → Bool
  | Event.updateTypedCall _ _ _ => true
  | Event.updateUntypedCall _ _ _ => true
  | _ => false

/-- A file write-back was performed. -/
def isWriteEvent : Event → Bool
  | Event.fileWrite _ _ => true
  | _ => false

/-- The file system: full path to content. -/
abbrev FS := List (String × String)

/-- `ioutil.ReadFile` over the modelled file system. -/
def fsRead (fs : FS) (p : String) : Option String :=
  (fs.find? (fun e => e.1 == p)).map (fun e => e.2)

/-- `ioutil.WriteFile` over the modelled file system. -/
def fsWrite (fs : FS) (p c : String) : FS :=
  if fs.any (fun e => e.1 == p) then fs.map (fun e => if e.1 == p then (p, c) else e)
  else fs ++ [(p, c)]

/-- `filepath.Join(issue.Path, issue.FileName)` for plain names. -/
def pathJoin (d f : String) : String := d ++ "/" ++ f

/-- The line written back: `"id: " + strconv.FormatInt(number, 10)`. -/
def idLine (n : Int) : String := "id: " ++ toString n

/-- The first loop of the write-back (github.go:104-110): replace the first
line with the `id:` line-start in place; `none` when no line has it. -/
def replaceFirstId (n : Int) : List String → Option (List String)
  | [] => none
  | l :: ls =>
    if beginsWith l "id:" then some (idLine n :: ls)
    else (replaceFirstId n ls).map (fun r => l :: r)

/-- The `frontMatterEnd` scan of github.go:113-122: remember the index of the
first trimmed `---` found while the accumulator is zero, stop at the next. -/
def findFMEndAux : Nat → Nat → List String → Nat
  | _, acc, [] => acc
  | idx, acc, l :: ls =>
    if strTrim l == "---" then
      if acc == 0 then findFMEndAux (idx + 1) idx ls else acc
    else findFMEndAux (idx + 1) acc ls

/-- `frontMatterEnd` for a whole file. -/
def findFMEnd (ls : List String) : Nat := findFMEndAux 0 0 ls

/-- The complete front-matter rewrite of github.go:102-131: replace an existing
`id:` line in place, otherwise insert at `frontMatterEnd` when it is non-zero,
otherwise append at the end of the file. -/
def rewriteId (ls : List String) (n : Int) : List String :=
  match replaceFirstId n ls with
  | some r => r
  | none =>
    let fmEnd := findFMEnd ls
    if fmEnd == 0 then ls ++ [idLine n]
    else ls.take fmEnd ++ idLine n :: ls.drop fmEnd

/-- `strconv.ParseInt(s, 10, 64)` would overflow past this bound. -/
def maxInt64 : Nat := 9223372036854775807

/-- Decimal digits to a number. -/
def digitsToNat (cs : List Char) : Nat :=
  cs.foldl (fun a c => a * 10 + (c.toNat - '0'.toNat)) 0

/-- A non-empty all-digit run, the digit part of `strconv.ParseInt`. -/
def parseDigits (cs : List Char) : Option Nat :=
  if cs.isEmpty then none
  else if cs.all (fun c => c.isDigit) then some (digitsToNat cs) else none

/-- `strconv.ParseInt(s, 10, 64)`: optional sign, decimal digits, 64-bit
range check; `none` plays the role of a non-nil error. -/
def parseInt64 (s : String) : Option Int :=
  match s.data with
  | [] => none
  | c :: rest =>
    if c == '+' then
      (parseDigits rest).bind (fun v => if v ≤ maxInt64 then some (Int.ofNat v) else none)
    else if c == '-' then
      (parseDigits rest).bind
        (fun v => if v ≤ maxInt64 + 1 then some (-(Int.ofNat v)) else none)
    else
      (parseDigits (c :: rest)).bind
        (fun v => if v ≤ maxInt64 then some (Int.ofNat v) else none)

/-- The `issueNumber <= 0` guard at the top of `ResolveIssueNodeID`
(github.go:192-194), before the oracle is consulted. -/
def resolveNodeGuard (env : Env) (n : Int) : Except String String :=
  if n ≤ 0 then Except.error "invalid issue number: nonpositive" else env.resolveIssueNode n

/-- The `projectNodeID` actually passed on: the resolved id on success, the
Go zero value `""` after a resolution error (no `continue` in the source). -/
def projectNodeOf : Except String String → String
  | Except.ok v => v
  | Except.error _ => ""

/-- The report printed after a failed project resolution. -/
def projErrEvents : Except String String → List Event
  | Except.ok _ => []
  | Except.error e => [Event.resolveProjectError e]

/-- The report printed after a failed `AddIssueToProject`. -/
def linkErrEvents : Option String → List Event
  | some e => [Event.linkError e]
  | none => []

/-- The project-linkage tail of the loop body (github.go:166-184).  Note the
source prints and `continue`s on an issue-node resolution error, but after a
project-resolution error it only prints and still performs the link request
with the zero-valued `projectNodeID`. -/
def linkPhase (env : Env) (i : Issue) (number : Int) : List Event :=
  if i.project == "" then []
  else
    match resolveNodeGuard env number with
    | Except.error e => [Event.resolveNodeError e]
    | Except.ok issueNodeID =>
      projErrEvents (env.resolveProject i.project) ++
        Event.linkRequest issueNodeID (projectNodeOf (env.resolveProject i.project)) ::
          linkErrEvents
            (env.addToProject issueNodeID (projectNodeOf (env.resolveProject i.project)))

/-- The creation call of github.go:89-93: typed when the trimmed type is
non-empty, untyped otherwise. -/
def createResult (env : Env) (i : Issue) : IssueResult :=
  if !(strTrim i.type == "") then env.createTyped i else env.createUntyped i

/-- The event recording which creation operation ran. -/
def createEvent (i : Issue) (r : IssueResult) : Event :=
  if !(strTrim i.type == "") then Event.createTypedCall i r else Event.createUntypedCall i r

/-- The update call of github.go:146-150. -/
def updateResult (env : Env) (i : Issue) (n : Int) : IssueResult :=
  if !(strTrim i.type == "") then env.updateTyped i n else env.updateUntyped i n

/-- The event recording which update operation ran. -/
def updateEvent (i : Issue) (n : Int) (r : IssueResult) : Event :=
  if !(strTrim i.type == "") then Event.updateTypedCall i n r else Event.updateUntypedCall i n r

/-- One iteration of the loop of `CreateIssues` (github.go:84-185): create when
`id` is empty (write the returned number back into the file, skipping the rest
on a read error), otherwise parse `id` and update; then the project-linkage
tail.  Returns the new file system and the events of this iteration. -/
def syncStep (env : Env) (fs : FS) (i : Issue) : FS × List Event :=
  if i.id == "" then
    let r := createResult env i
    let p := pathJoin i.path i.fileName
    match fsRead fs p with
    | none => (fs, [createEvent i r, Event.readError p])
    | some content =>
      let newContent := strUnlines (rewriteId (strLines content) r.number)
      (fsWrite fs p newContent,
        createEvent i r :: Event.fileWrite p newContent :: linkPhase env i r.number)
  else
    match parseInt64 i.id with
    | none => (fs, Event.idParseError i :: linkPhase env i 0)
    | some n =>
      let r := updateResult env i n
      (fs, updateEvent i n r :: linkPhase env i r.number)

/-- The loop of `CreateIssues` over an already-sorted list. -/
def runIssues (env : Env) : List Issue → FS → FS × List Event
  | [], fs => (fs, [])
  | i :: rest, fs =>
    let st := syncStep env fs i
    let r := runIssues env rest st.1
    (r.1, st.2 ++ r.2)

/-- `github.CreateIssues`: sort, then synchronize each issue in order. -/
def CreateIssues (env : Env) (fs : FS) (issues : List Issue) : FS × List Event :=
  runIssues env (SortIssuesByDependency issues) fs

/-! ### The create command (`cmd/create/create.go`) -/

/-- The fragment of `create.Cmd.Run` after reading the issue files
(create.go:78-88): optionally stamp the project flag onto every issue, then
access `issues[0].Project`.  Go panics on the empty slice; the panic is
modelled as `none`. -/
def cmdRunFirstProject (projectID : String) (issues : List Issue) : Option String :=
  let stamped :=
    if !(projectID == "") then issues.map (fun i => { i with project := projectID })
    else issues
  match stamped with
  | [] => none
  | i :: _ => some i.project

/-! ### Concrete fixtures for witnesses and counterexamples -/

/-- A successful remote result. -/
def resOk (n : Int) : IssueResult := { number := n, nodeID := "node", err := none }

/-- The zero-valued failed result the source's operations return on error. -/
def resErr : IssueResult := { number := 0, nodeID := "", err := some "boom" }

/-- An oracle for which every remote operation succeeds. -/
def envOk : Env :=
  { createTyped := fun _ => resOk 7, createUntyped := fun _ => resOk 7,
    updateTyped := fun _ n => resOk n, updateUntyped := fun _ n => resOk n,
    resolveIssueNode := fun _ => Except.ok "ISSUE_NODE",
    resolveProject := fun _ => Except.ok "PROJ_NODE",
    addToProject := fun _ _ => none }

/-- An oracle whose creation operations fail. -/
def envCreateFails : Env :=
  { envOk with createTyped := fun _ => resErr, createUntyped := fun _ => resErr }

/-- An oracle whose project resolution fails. -/
def envProjectFails : Env :=
  { envOk with resolveProject := fun _ => Except.error "proj boom" }

/-- An oracle whose link request fails. -/
def envLinkFails : Env :=
  { envOk with addToProject := fun _ _ => some "link boom" }

def epicEx : Issue := { blankIssue with title := "Epic1", type := "Epic" }
def taskEx : Issue := { blankIssue with title := "Task1", parent := "Epic1" }
def c1Input : List Issue := [epicEx, taskEx]
def issueWA : Issue := { blankIssue with title := "A" }
def issueWB : Issue := { blankIssue with title := "B", parent := "A" }
def c1wInput : List Issue := [issueWB, issueWA]
def iTyped : Issue := { blankIssue with path := "d", fileName := "f.md", type := "Task" }
def iPlain : Issue := { blankIssue with path := "d", fileName := "f.md" }
def fs0 : FS := [("d/f.md", "x")]
def iProjEx : Issue := { blankIssue with id := "42", project := "P" }
def orphanEx : Issue := { blankIssue with title := "Orphan", parent := "Ghost" }
def c6Entries : List (String × String) := [("f.md", "x")]
def c6Fs : FS := [("d/f.md", "x")]
def c6GoodEntries : List (String × String) := [("f.md", "---\ntitle: A\nid: 3\n---\nb")]

instance (l : List Issue) : Decidable (ChildAfterParents l) := by
  unfold ChildAfterParents; infer_instance

instance (issues : List Issue) : Decidable (TitlesNodup issues) := by
  unfold TitlesNodup; infer_instance

instance (issues : List Issue) : Decidable (ParentClosed issues) := by
  unfold ParentClosed; infer_instance

instance (issues : List Issue) : Decidable (NoEpicParentOfRegular issues) := by
  unfold NoEpicParentOfRegular; infer_instance


/-! ### Helper lemmas -/

theorem parentIn_mono {s : List Issue} {i : Issue} (t : List Issue)
    (h : parentIn s i = true) : parentIn (s ++ t) i = true := by
  unfold parentIn at h ⊢
  rw [List.any_append, h, Bool.true_or]

theorem parentIn_of_mem {s : List Issue} {i j : Issue} (hj : j ∈ s)
    (hm : normKey j.title = normKey i.parent) : parentIn s i = true := by
  simp only [parentIn, List.any_eq_true]
  exact ⟨j, hj, by simp [titleMatchesParent, hm]⟩

theorem onePass_perm (rem : List Issue) :
    ∀ sorted, ((onePass sorted rem).sorted ++ (onePass sorted rem).still).Perm (sorted ++ rem) := by
  induction rem with
  | nil => intro sorted; simp [onePass]
  | cons i rest ih =>
    intro sorted
    cases h : parentIn sorted i with
    | true =>
      simpa [onePass, h, List.append_assoc] using ih (sorted ++ [i])
    | false =>
      simp only [onePass, h, Bool.false_eq_true, if_false]
      exact List.perm_middle.trans (((ih sorted).cons i).trans List.perm_middle.symm)

theorem onePass_still_mem (rem : List Issue) :
    ∀ sorted, ∀ x ∈ (onePass sorted rem).still, x ∈ rem := by
  induction rem with
  | nil => intro sorted x hx; simp [onePass] at hx
  | cons i rest ih =>
    intro sorted x hx
    cases h : parentIn sorted i with
    | true =>
      simp only [onePass, h, if_true] at hx
      exact List.mem_cons_of_mem i (ih (sorted ++ [i]) x hx)
    | false =>
      simp only [onePass, h, Bool.false_eq_true, if_false] at hx
      rcases List.mem_cons.mp hx with rfl | hx
      · exact List.mem_cons_self _ _
      · exact List.mem_cons_of_mem i (ih sorted x hx)

theorem onePass_sorted_shape (rem : List Issue) :
    ∀ sorted, ∃ t, (onePass sorted rem).sorted = sorted ++ t ∧ ∀ x ∈ t, x ∈ rem := by
  induction rem with
  | nil => intro sorted; exact ⟨[], by simp [onePass], by simp⟩
  | cons i rest ih =>
    intro sorted
    cases h : parentIn sorted i with
    | true =>
      obtain ⟨t, ht, hmem⟩ := ih (sorted ++ [i])
      refine ⟨i :: t, ?_, ?_⟩
      · simp only [onePass, h, if_true]
        rw [ht, List.append_assoc]; rfl
      · intro x hx
        rcases List.mem_cons.mp hx with rfl | hx
        · exact List.mem_cons_self _ _
        · exact List.mem_cons_of_mem i (hmem x hx)
    | false =>
      obtain ⟨t, ht, hmem⟩ := ih sorted
      refine ⟨t, ?_, fun x hx => List.mem_cons_of_mem i (hmem x hx)⟩
      simp only [onePass, h, Bool.false_eq_true, if_false]
      exact ht

theorem onePass_not_added (rem : List Issue) :
    ∀ sorted, (onePass sorted rem).added = false → onePass sorted rem = ⟨sorted, rem, false⟩ := by
  induction rem with
  | nil => intro sorted _; simp [onePass]
  | cons i rest ih =>
    intro sorted hadd
    cases h : parentIn sorted i with
    | true => simp [onePass, h] at hadd
    | false =>
      simp only [onePass, h, Bool.false_eq_true, if_false] at hadd ⊢
      have := ih sorted hadd
      rw [this]

theorem onePass_still_le (rem : List Issue) :
    ∀ sorted, (onePass sorted rem).still.length ≤ rem.length := by
  induction rem with
  | nil => intro sorted; simp [onePass]
  | cons i rest ih =>
    intro sorted
    cases h : parentIn sorted i with
    | true =>
      simp only [onePass, h, if_true, List.length_cons]
      exact Nat.le_succ_of_le (ih (sorted ++ [i]))
    | false =>
      simp only [onePass, h, Bool.false_eq_true, if_false, List.length_cons]
      exact Nat.succ_le_succ (ih sorted)

theorem onePass_added_lt (rem : List Issue) :
    ∀ sorted, (onePass sorted rem).added = true → (onePass sorted rem).still.length < rem.length := by
  induction rem with
  | nil => intro sorted h; simp [onePass] at h
  | cons i rest ih =>
    intro sorted hadd
    cases h : parentIn sorted i with
    | true =>
      simp only [onePass, h, if_true, List.length_cons]
      exact Nat.lt_succ_of_le (onePass_still_le rest (sorted ++ [i]))
    | false =>
      simp only [onePass, h, Bool.false_eq_true, if_false, List.length_cons] at hadd ⊢
      exact Nat.succ_lt_succ (ih sorted hadd)

theorem onePass_progress (rem : List Issue) :
    ∀ sorted i, i ∈ rem → parentIn sorted i = true → (onePass sorted rem).added = true := by
  induction rem with
  | nil => intro sorted i hi; simp at hi
  | cons j rest ih =>
    intro sorted i hi hpar
    cases h : parentIn sorted j with
    | true => simp [onePass, h]
    | false =>
      simp only [onePass, h, Bool.false_eq_true, if_false]
      rcases List.mem_cons.mp hi with rfl | hi
      · rw [h] at hpar; cases hpar
      · exact ih sorted i hi hpar


theorem resolveLoop_perm (fuel : Nat) :
    ∀ sorted rem : List Issue, (resolveLoop fuel sorted rem).Perm (sorted ++ rem) := by
  induction fuel with
  | zero =>
    intro sorted rem
    cases rem with
    | nil => simp [resolveLoop]
    | cons i rest => simp [resolveLoop]
  | succ fuel ih =>
    intro sorted rem
    cases rem with
    | nil => simp [resolveLoop]
    | cons i rest =>
      show (if (onePass sorted (i :: rest)).added then
          resolveLoop fuel (onePass sorted (i :: rest)).sorted (onePass sorted (i :: rest)).still
        else (onePass sorted (i :: rest)).sorted ++ (onePass sorted (i :: rest)).still).Perm _
      cases h : (onePass sorted (i :: rest)).added with
      | true =>
        simp only [if_true]
        exact (ih _ _).trans (onePass_perm (i :: rest) sorted)
      | false =>
        simp only [Bool.false_eq_true, if_false]
        exact onePass_perm (i :: rest) sorted

theorem resolveLoop_shape (fuel : Nat) :
    ∀ sorted rem : List Issue, ∃ t, resolveLoop fuel sorted rem = sorted ++ t ∧ ∀ x ∈ t, x ∈ rem := by
  induction fuel with
  | zero =>
    intro sorted rem
    cases rem with
    | nil => exact ⟨[], by simp [resolveLoop], by simp⟩
    | cons i rest => exact ⟨i :: rest, by simp [resolveLoop], fun x hx => hx⟩
  | succ fuel ih =>
    intro sorted rem
    cases rem with
    | nil => exact ⟨[], by simp [resolveLoop], by simp⟩
    | cons i rest =>
      show ∃ t, (if (onePass sorted (i :: rest)).added then
          resolveLoop fuel (onePass sorted (i :: rest)).sorted (onePass sorted (i :: rest)).still
        else (onePass sorted (i :: rest)).sorted ++ (onePass sorted (i :: rest)).still) = sorted ++ t
          ∧ ∀ x ∈ t, x ∈ i :: rest
      obtain ⟨t₁, ht₁, hm₁⟩ := onePass_sorted_shape (i :: rest) sorted
      cases h : (onePass sorted (i :: rest)).added with
      | true =>
        simp only [if_true]
        obtain ⟨t₂, ht₂, hm₂⟩ := ih (onePass sorted (i :: rest)).sorted (onePass sorted (i :: rest)).still
        refine ⟨t₁ ++ t₂, ?_, ?_⟩
        · rw [ht₂, ht₁, List.append_assoc]
        · intro x hx
          rcases List.mem_append.mp hx with hx | hx
          · exact hm₁ x hx
          · exact onePass_still_mem (i :: rest) sorted x (hm₂ x hx)
      | false =>
        simp only [Bool.false_eq_true, if_false]
        refine ⟨t₁ ++ (onePass sorted (i :: rest)).still, ?_, ?_⟩
        · rw [ht₁, List.append_assoc]
        · intro x hx
          rcases List.mem_append.mp hx with hx | hx
          · exact hm₁ x hx
          · exact onePass_still_mem (i :: rest) sorted x hx

theorem resolveLoop_fuel_ge (fuel : Nat) :
    ∀ fuel₂ sorted (rem : List Issue), rem.length ≤ fuel → rem.length ≤ fuel₂ →
      resolveLoop fuel sorted rem = resolveLoop fuel₂ sorted rem := by
  induction fuel with
  | zero =>
    intro fuel₂ sorted rem h₁ _
    have : rem = [] := List.eq_nil_of_length_eq_zero (Nat.le_zero.mp h₁)
    subst this
    cases fuel₂ <;> simp [resolveLoop]
  | succ fuel ih =>
    intro fuel₂ sorted rem h₁ h₂
    cases rem with
    | nil => cases fuel₂ <;> simp [resolveLoop]
    | cons i rest =>
      cases fuel₂ with
      | zero => simp at h₂
      | succ fuel₂ =>
        show (if (onePass sorted (i :: rest)).added then
            resolveLoop fuel (onePass sorted (i :: rest)).sorted (onePass sorted (i :: rest)).still
          else _) = (if (onePass sorted (i :: rest)).added then
            resolveLoop fuel₂ (onePass sorted (i :: rest)).sorted (onePass sorted (i :: rest)).still
          else _)
        cases h : (onePass sorted (i :: rest)).added with
        | true =>
          simp only [if_true]
          have hlt := onePass_added_lt (i :: rest) sorted h
          exact ih fuel₂ _ _ (by omega) (by omega)
        | false => simp only [Bool.false_eq_true, if_false]

theorem resolveAll_eq_of_fuel {fuel : Nat} {sorted rem : List Issue} (h : rem.length ≤ fuel) :
    resolveLoop fuel sorted rem = resolveAll sorted rem :=
  resolveLoop_fuel_ge fuel rem.length sorted rem h (Nat.le_refl _)


theorem okOrder_of_no_parents {l : List Issue} (h : ∀ i ∈ l, hasParentRef i = false) :
    OkOrder l := by
  intro p hp
  rw [h (l.get p) (l.get_mem p.1 p.2)] at hp
  cases hp

theorem okOrder_snoc {l : List Issue} {i : Issue} (hok : OkOrder l)
    (hpar : hasParentRef i = true → parentIn l i = true) : OkOrder (l ++ [i]) := by
  intro p hp
  by_cases hlt : (p : Nat) < l.length
  · have hget : (l ++ [i]).get p = l.get ⟨(p : Nat), hlt⟩ := by
      simp only [List.get_eq_getElem]
      exact List.getElem_append_left hlt
    have htake : (l ++ [i]).take (p : Nat) = l.take (p : Nat) :=
      List.take_append_of_le_length (Nat.le_of_lt hlt)
    rw [hget] at hp
    rw [hget, htake]
    exact hok ⟨(p : Nat), hlt⟩ hp
  · have hple : (p : Nat) < l.length + 1 := by
      have := p.2; simpa [List.length_append] using this
    have hpeq : (p : Nat) = l.length := by omega
    have hget : (l ++ [i]).get p = i := by
      simp only [List.get_eq_getElem]
      rw [List.getElem_append_right (by omega)]
      simp [hpeq]
    have htake : (l ++ [i]).take (p : Nat) = l := by
      rw [hpeq]; exact List.take_left l [i]
    rw [hget] at hp
    rw [hget, htake]
    exact hpar hp

theorem okOrder_append_roots {l₂ : List Issue} (h₂ : ∀ i ∈ l₂, hasParentRef i = false) :
    ∀ l : List Issue, OkOrder l → OkOrder (l ++ l₂) := by
  induction l₂ with
  | nil => intro l hok; simpa using hok
  | cons a t ih =>
    intro l hok
    have hsplit : l ++ a :: t = (l ++ [a]) ++ t := by simp
    rw [hsplit]
    have ha : hasParentRef a = false := h₂ a (List.mem_cons_self a t)
    exact ih (fun i hi => h₂ i (List.mem_cons_of_mem a hi)) (l ++ [a])
      (okOrder_snoc hok (fun hp => by rw [ha] at hp; cases hp))

theorem onePass_okOrder (rem : List Issue) :
    ∀ sorted, OkOrder sorted → OkOrder (onePass sorted rem).sorted := by
  induction rem with
  | nil => intro sorted h; simpa [onePass] using h
  | cons i rest ih =>
    intro sorted h
    cases hp : parentIn sorted i with
    | true =>
      simp only [onePass, hp, if_true]
      exact ih (sorted ++ [i]) (okOrder_snoc h (fun _ => hp))
    | false =>
      simp only [onePass, hp, Bool.false_eq_true, if_false]
      exact ih sorted h

theorem exists_rank_min (rank : Issue → Nat) :
    ∀ l : List Issue, l ≠ [] → ∃ m ∈ l, ∀ x ∈ l, rank m ≤ rank x := by
  intro l
  induction l with
  | nil => intro h; cases h rfl
  | cons a t ih =>
    intro _
    cases t with
    | nil => exact ⟨a, by simp, by simp⟩
    | cons b u =>
      obtain ⟨m, hm, hmin⟩ := ih (by simp)
      by_cases hc : rank a ≤ rank m
      · refine ⟨a, List.mem_cons_self a _, ?_⟩
        intro x hx
        rcases List.mem_cons.mp hx with rfl | hx
        · exact Nat.le_refl _
        · exact Nat.le_trans hc (hmin x hx)
      · refine ⟨m, List.mem_cons_of_mem a hm, ?_⟩
        intro x hx
        rcases List.mem_cons.mp hx with rfl | hx
        · exact Nat.le_of_lt (Nat.lt_of_not_le hc)
        · exact hmin x hx

theorem resolveLoop_okOrder {issues : List Issue} (rank : Issue → Nat)
    (hr : ∀ i ∈ issues, ∀ j ∈ issues, hasParentRef i = true →
      normKey j.title = normKey i.parent → rank j < rank i) :
    ∀ fuel (sorted rem : List Issue), rem.length ≤ fuel →
      (∀ x ∈ rem, x ∈ issues) →
      (∀ x ∈ rem, hasParentRef x = true) →
      (∀ x ∈ rem, ∃ j, j ∈ issues ∧ normKey j.title = normKey x.parent ∧
        (j ∈ sorted ∨ j ∈ rem)) →
      OkOrder sorted → OkOrder (resolveLoop fuel sorted rem) := by
  intro fuel
  induction fuel with
  | zero =>
    intro sorted rem hf _ _ _ hok
    have : rem = [] := List.eq_nil_of_length_eq_zero (Nat.le_zero.mp hf)
    subst this
    simpa [resolveLoop] using hok
  | succ fuel ih =>
    intro sorted rem hf hsub hpar hclo hok
    cases rem with
    | nil => simpa [resolveLoop] using hok
    | cons i rest =>
      obtain ⟨m, hm, hmin⟩ := exists_rank_min rank (i :: rest) (by simp)
      obtain ⟨j, hjiss, hjmatch, hjloc⟩ := hclo m hm
      have hjsorted : j ∈ sorted := by
        rcases hjloc with h | h
        · exact h
        · exact absurd (hmin j h)
            (Nat.not_le.mpr (hr m (hsub m hm) j hjiss (hpar m hm) hjmatch))
      have hadded : (onePass sorted (i :: rest)).added = true :=
        onePass_progress (i :: rest) sorted m hm (parentIn_of_mem hjsorted hjmatch)
      show OkOrder (if (onePass sorted (i :: rest)).added then
          resolveLoop fuel (onePass sorted (i :: rest)).sorted (onePass sorted (i :: rest)).still
        else (onePass sorted (i :: rest)).sorted ++ (onePass sorted (i :: rest)).still)
      rw [hadded, if_pos rfl]
      apply ih
      · have := onePass_added_lt (i :: rest) sorted hadded
        have hlen : (i :: rest).length ≤ fuel + 1 := hf
        omega
      · intro x hx; exact hsub x (onePass_still_mem _ _ x hx)
      · intro x hx; exact hpar x (onePass_still_mem _ _ x hx)
      · intro x hx
        obtain ⟨j', hj'iss, hj'match, hj'loc⟩ := hclo x (onePass_still_mem _ _ x hx)
        refine ⟨j', hj'iss, hj'match, ?_⟩
        have hmem : j' ∈ sorted ++ i :: rest := by
          rcases hj'loc with h | h
          · exact List.mem_append_left _ h
          · exact List.mem_append_right _ h
        have hj's := (onePass_perm (i :: rest) sorted).mem_iff.mpr hmem
        exact List.mem_append.mp hj's
      · exact onePass_okOrder (i :: rest) sorted hok


theorem sort_eq (issues : List Issue) :
    SortIssuesByDependency issues =
      resolveAll
        (resolveAll ((issues.filter (fun i => !isEpic i)).filter (fun i => !hasParentRef i))
            ((issues.filter (fun i => !isEpic i)).filter (fun i => hasParentRef i))
          ++ (issues.filter (fun i => isEpic i)).filter (fun e => !hasParentRef e))
        ((issues.filter (fun i => isEpic i)).filter (fun e => hasParentRef e)) := rfl

theorem filter_split_perm {α : Type} (p : α → Bool) (l : List α) :
    (l.filter (fun x => !p x) ++ l.filter p).Perm l :=
  List.perm_append_comm.trans (List.filter_append_perm p l)

theorem resolveAll_perm (sorted rem : List Issue) :
    (resolveAll sorted rem).Perm (sorted ++ rem) :=
  resolveLoop_perm rem.length sorted rem

theorem sortIssues_perm (issues : List Issue) :
    (SortIssuesByDependency issues).Perm issues := by
  rw [sort_eq]
  have h1 : (resolveAll ((issues.filter (fun i => !isEpic i)).filter (fun i => !hasParentRef i))
      ((issues.filter (fun i => !isEpic i)).filter (fun i => hasParentRef i))).Perm
      (issues.filter (fun i => !isEpic i)) :=
    (resolveAll_perm _ _).trans (filter_split_perm hasParentRef _)
  refine (resolveAll_perm _ _).trans ?_
  rw [List.append_assoc]
  exact (h1.append (filter_split_perm hasParentRef (issues.filter (fun i => isEpic i)))).trans
    (filter_split_perm (fun i => isEpic i) issues)


theorem sort_epicSplit (issues : List Issue) :
    ∃ A B, SortIssuesByDependency issues = A ++ B ∧
      (∀ x ∈ A, isEpic x = false) ∧ (∀ x ∈ B, isEpic x = true) := by
  rw [sort_eq]
  obtain ⟨t, ht, hmem⟩ := resolveLoop_shape
    (((issues.filter (fun i => isEpic i)).filter (fun e => hasParentRef e)).length)
    (resolveAll ((issues.filter (fun i => !isEpic i)).filter (fun i => !hasParentRef i))
        ((issues.filter (fun i => !isEpic i)).filter (fun i => hasParentRef i))
      ++ (issues.filter (fun i => isEpic i)).filter (fun e => !hasParentRef e))
    ((issues.filter (fun i => isEpic i)).filter (fun e => hasParentRef e))
  refine ⟨resolveAll ((issues.filter (fun i => !isEpic i)).filter (fun i => !hasParentRef i))
      ((issues.filter (fun i => !isEpic i)).filter (fun i => hasParentRef i)),
    (issues.filter (fun i => isEpic i)).filter (fun e => !hasParentRef e) ++ t, ?_, ?_, ?_⟩
  · show resolveAll _ _ = _
    unfold resolveAll at ht ⊢
    rw [ht, List.append_assoc]
  · intro x hx
    have hx' := (resolveAll_perm _ _).mem_iff.mp hx
    rcases List.mem_append.mp hx' with h | h
    · exact (Bool.not_eq_true' _) ▸ (List.mem_filter.mp (List.mem_filter.mp h).1).2
    · exact (Bool.not_eq_true' _) ▸ (List.mem_filter.mp (List.mem_filter.mp h).1).2
  · intro x hx
    rcases List.mem_append.mp hx with h | h
    · exact (List.mem_filter.mp (List.mem_filter.mp h).1).2
    · exact (List.mem_filter.mp (List.mem_filter.mp (hmem x h)).1).2

theorem childAfterParents_of_okOrder {l : List Issue} (hok : OkOrder l)
    (hnd : (l.map (fun i => normKey i.title)).Nodup) : ChildAfterParents l := by
  intro p q hp hmatch
  have hin := hok p hp
  rw [parentIn, List.any_eq_true] at hin
  obtain ⟨s, hs, hmt⟩ := hin
  obtain ⟨k, hk, hks⟩ := List.mem_iff_getElem.mp hs
  have hkp : k < (p : Nat) := by
    have := hk
    rw [List.length_take] at this
    omega
  have hkl : k < l.length := Nat.lt_trans hkp p.2
  have hlk : l[k] = s := by
    rw [← hks]
    exact (List.getElem_take l).symm
  have hmt' : normKey s.title = normKey (l.get p).parent := by
    simpa [titleMatchesParent] using hmt
  have hqk : (q : Nat) = k := by
    have hq' : (q : Nat) < (l.map (fun i => normKey i.title)).length := by
      rw [List.length_map]; exact q.2
    have hk' : k < (l.map (fun i => normKey i.title)).length := by
      rw [List.length_map]; exact hkl
    have hvals : (l.map (fun i => normKey i.title))[(q : Nat)] =
        (l.map (fun i => normKey i.title))[k] := by
      rw [List.getElem_map, List.getElem_map]
      show normKey (l[(q : Nat)]).title = normKey (l[k]).title
      rw [hlk]
      rw [← List.get_eq_getElem]
      exact hmatch.trans hmt'.symm
    exact (hnd.getElem_inj_iff).mp hvals
  omega


theorem mem_filter_split (p : Issue → Bool) {l : List Issue} {j : Issue} (hj : j ∈ l) :
    j ∈ l.filter (fun x => !p x) ∨ j ∈ l.filter p := by
  cases h : p j with
  | true => exact Or.inr (List.mem_filter.mpr ⟨hj, h⟩)
  | false => exact Or.inl (List.mem_filter.mpr ⟨hj, by rw [h]; rfl⟩)

theorem resolveAll_okOrder {issues : List Issue} (rank : Issue → Nat)
    (hr : ∀ i ∈ issues, ∀ j ∈ issues, hasParentRef i = true →
      normKey j.title = normKey i.parent → rank j < rank i)
    (sorted rem : List Issue)
    (hsub : ∀ x ∈ rem, x ∈ issues)
    (hpar : ∀ x ∈ rem, hasParentRef x = true)
    (hclo : ∀ x ∈ rem, ∃ j, j ∈ issues ∧ normKey j.title = normKey x.parent ∧
      (j ∈ sorted ∨ j ∈ rem))
    (hok : OkOrder sorted) : OkOrder (resolveAll sorted rem) :=
  resolveLoop_okOrder rank hr rem.length sorted rem (Nat.le_refl _) hsub hpar hclo hok

theorem sort_okOrder {issues : List Issue} (hrank : HasParentRank issues)
    (hclosed : ParentClosed issues) (hepic : NoEpicParentOfRegular issues) :
    OkOrder (SortIssuesByDependency issues) := by
  obtain ⟨rank, hr⟩ := hrank
  rw [sort_eq]
  have hokR0 : OkOrder ((issues.filter (fun i => !isEpic i)).filter (fun i => !hasParentRef i)) :=
    okOrder_of_no_parents (fun i hi => (Bool.not_eq_true' _) ▸ (List.mem_filter.mp hi).2)
  have hS1 : OkOrder (resolveAll
      ((issues.filter (fun i => !isEpic i)).filter (fun i => !hasParentRef i))
      ((issues.filter (fun i => !isEpic i)).filter (fun i => hasParentRef i))) := by
    apply resolveAll_okOrder rank hr
    · intro x hx
      exact (List.mem_filter.mp (List.mem_filter.mp hx).1).1
    · intro x hx
      exact (List.mem_filter.mp hx).2
    · intro x hx
      have hxR := (List.mem_filter.mp hx).1
      have hxiss := (List.mem_filter.mp hxR).1
      have hxpar := (List.mem_filter.mp hx).2
      have hxreg : isEpic x = false := (Bool.not_eq_true' _) ▸ (List.mem_filter.mp hxR).2
      obtain ⟨j, hjiss, hjm⟩ := hclosed x hxiss hxpar
      have hjreg : isEpic j = false := by
        cases hje : isEpic j with
        | true => rw [hepic x hxiss j hjiss hxpar hjm hje] at hxreg; cases hxreg
        | false => rfl
      have hjR : j ∈ issues.filter (fun i => !isEpic i) :=
        List.mem_filter.mpr ⟨hjiss, by rw [hjreg]; rfl⟩
      exact ⟨j, hjiss, hjm, mem_filter_split hasParentRef hjR⟩
    · exact hokR0
  have hS2 : OkOrder (resolveAll
        ((issues.filter (fun i => !isEpic i)).filter (fun i => !hasParentRef i))
        ((issues.filter (fun i => !isEpic i)).filter (fun i => hasParentRef i))
      ++ (issues.filter (fun i => isEpic i)).filter (fun e => !hasParentRef e)) :=
    okOrder_append_roots
      (fun i hi => (Bool.not_eq_true' _) ▸ (List.mem_filter.mp hi).2) _ hS1
  apply resolveAll_okOrder rank hr
  · intro x hx
    exact (List.mem_filter.mp (List.mem_filter.mp hx).1).1
  · intro x hx
    exact (List.mem_filter.mp hx).2
  · intro x hx
    have hxE := (List.mem_filter.mp hx).1
    have hxiss := (List.mem_filter.mp hxE).1
    have hxpar := (List.mem_filter.mp hx).2
    obtain ⟨j, hjiss, hjm⟩ := hclosed x hxiss hxpar
    refine ⟨j, hjiss, hjm, ?_⟩
    cases hje : isEpic j with
    | false =>
      have hjR : j ∈ issues.filter (fun i => !isEpic i) :=
        List.mem_filter.mpr ⟨hjiss, by rw [hje]; rfl⟩
      have hjS1 : j ∈ resolveAll
          ((issues.filter (fun i => !isEpic i)).filter (fun i => !hasParentRef i))
          ((issues.filter (fun i => !isEpic i)).filter (fun i => hasParentRef i)) := by
        apply (resolveAll_perm _ _).mem_iff.mpr
        rcases mem_filter_split hasParentRef hjR with h | h
        · exact List.mem_append_left _ h
        · exact List.mem_append_right _ h
      exact Or.inl (List.mem_append_left _ hjS1)
    | true =>
      have hjE : j ∈ issues.filter (fun i => isEpic i) := List.mem_filter.mpr ⟨hjiss, hje⟩
      rcases mem_filter_split hasParentRef hjE with h | h
      · exact Or.inl (List.mem_append_right _ h)
      · exact Or.inr h
  · exact hS2

theorem sort_childAfterParents {issues : List Issue} (h1 : HasParentRank issues)
    (h2 : TitlesNodup issues) (h3 : ParentClosed issues) (h4 : NoEpicParentOfRegular issues) :
    ChildAfterParents (SortIssuesByDependency issues) := by
  unfold TitlesNodup at h2
  exact childAfterParents_of_okOrder (sort_okOrder h1 h3 h4)
    (((sortIssues_perm issues).map (fun i => normKey i.title)).nodup_iff.mpr h2)


theorem mem_projErrEvents {pr : Except String String} {e : Event}
    (h : e ∈ projErrEvents pr) : ∃ m, e = Event.resolveProjectError m := by
  cases pr with
  | ok v => cases h
  | error m =>
    simp only [projErrEvents, List.mem_singleton] at h
    exact ⟨m, h⟩

theorem mem_linkErrEvents {o : Option String} {e : Event}
    (h : e ∈ linkErrEvents o) : ∃ m, e = Event.linkError m := by
  cases o with
  | none => cases h
  | some m =>
    simp only [linkErrEvents, List.mem_singleton] at h
    exact ⟨m, h⟩

theorem linkPhase_events (env : Env) (i : Issue) (n : Int) :
    ∀ e ∈ linkPhase env i n,
      isCreateEvent e = false ∧ isUpdateEvent e = false ∧ isWriteEvent e = false := by
  intro e he
  unfold linkPhase at he
  split at he
  · cases he
  · split at he
    · simp only [List.mem_singleton] at he
      subst he; exact ⟨rfl, rfl, rfl⟩
    · rcases List.mem_append.mp he with h | h
      · obtain ⟨m, rfl⟩ := mem_projErrEvents h
        exact ⟨rfl, rfl, rfl⟩
      · rcases List.mem_cons.mp h with rfl | h
        · exact ⟨rfl, rfl, rfl⟩
        · obtain ⟨m, rfl⟩ := mem_linkErrEvents h
          exact ⟨rfl, rfl, rfl⟩

theorem isCreateEvent_createEvent (i : Issue) (r : IssueResult) :
    isCreateEvent (createEvent i r) = true := by
  unfold createEvent; split <;> rfl

theorem isUpdateEvent_createEvent (i : Issue) (r : IssueResult) :
    isUpdateEvent (createEvent i r) = false := by
  unfold createEvent; split <;> rfl

theorem isWriteEvent_createEvent (i : Issue) (r : IssueResult) :
    isWriteEvent (createEvent i r) = false := by
  unfold createEvent; split <;> rfl

theorem isCreateEvent_updateEvent (i : Issue) (n : Int) (r : IssueResult) :
    isCreateEvent (updateEvent i n r) = false := by
  unfold updateEvent; split <;> rfl

theorem isUpdateEvent_updateEvent (i : Issue) (n : Int) (r : IssueResult) :
    isUpdateEvent (updateEvent i n r) = true := by
  unfold updateEvent; split <;> rfl

theorem syncStep_events (env : Env) (fs : FS) (i : Issue) :
    (i.id = "" ∧
      ((fsRead fs (pathJoin i.path i.fileName) = none ∧
          (syncStep env fs i).2 =
            [createEvent i (createResult env i), Event.readError (pathJoin i.path i.fileName)])
        ∨ (∃ content, fsRead fs (pathJoin i.path i.fileName) = some content ∧
            (syncStep env fs i).2 =
              createEvent i (createResult env i) ::
                Event.fileWrite (pathJoin i.path i.fileName)
                  (strUnlines (rewriteId (strLines content) (createResult env i).number)) ::
                  linkPhase env i (createResult env i).number)))
    ∨ (i.id ≠ "" ∧
      ((parseInt64 i.id = none ∧
          (syncStep env fs i).2 = Event.idParseError i :: linkPhase env i 0)
        ∨ (∃ n, parseInt64 i.id = some n ∧
            (syncStep env fs i).2 =
              updateEvent i n (updateResult env i n) ::
                linkPhase env i (updateResult env i n).number))) := by
  by_cases hid : i.id = ""
  · refine Or.inl ⟨hid, ?_⟩
    cases hread : fsRead fs (pathJoin i.path i.fileName) with
    | none =>
      refine Or.inl ⟨rfl, ?_⟩
      unfold syncStep
      rw [if_pos (by simp [hid])]
      dsimp only
      rw [hread]
    | some content =>
      refine Or.inr ⟨content, rfl, ?_⟩
      unfold syncStep
      rw [if_pos (by simp [hid])]
      dsimp only
      rw [hread]
  · refine Or.inr ⟨hid, ?_⟩
    cases hparse : parseInt64 i.id with
    | none =>
      refine Or.inl ⟨rfl, ?_⟩
      unfold syncStep
      rw [if_neg (by simp [hid])]
      dsimp only
      rw [hparse]
    | some n =>
      refine Or.inr ⟨n, rfl, ?_⟩
      unfold syncStep
      rw [if_neg (by simp [hid])]
      dsimp only
      rw [hparse]


theorem syncStep_no_update_of_id_empty {env : Env} {fs : FS} {i : Issue} (hid : i.id = "") :
    ∀ e ∈ (syncStep env fs i).2, isUpdateEvent e = false := by
  intro e he
  rcases syncStep_events env fs i with ⟨_, h⟩ | ⟨hne, _⟩
  · rcases h with ⟨_, hev⟩ | ⟨content, _, hev⟩
    · rw [hev] at he
      rcases List.mem_cons.mp he with rfl | he
      · exact isUpdateEvent_createEvent i _
      · simp only [List.mem_singleton] at he
        subst he; rfl
    · rw [hev] at he
      rcases List.mem_cons.mp he with rfl | he
      · exact isUpdateEvent_createEvent i _
      · rcases List.mem_cons.mp he with rfl | he
        · rfl
        · exact (linkPhase_events env i _ e he).2.1
  · exact absurd hid hne

theorem syncStep_no_create_of_id_ne {env : Env} {fs : FS} {i : Issue} (hid : i.id ≠ "") :
    ∀ e ∈ (syncStep env fs i).2, isCreateEvent e = false := by
  intro e he
  rcases syncStep_events env fs i with ⟨heq, _⟩ | ⟨_, h⟩
  · exact absurd heq hid
  · rcases h with ⟨_, hev⟩ | ⟨n, _, hev⟩
    · rw [hev] at he
      rcases List.mem_cons.mp he with rfl | he
      · rfl
      · exact (linkPhase_events env i 0 e he).1
    · rw [hev] at he
      rcases List.mem_cons.mp he with rfl | he
      · exact isCreateEvent_updateEvent i n _
      · exact (linkPhase_events env i _ e he).1

theorem syncStep_create_mem {env : Env} {fs : FS} {i : Issue} (hid : i.id = "") :
    createEvent i (createResult env i) ∈ (syncStep env fs i).2 := by
  rcases syncStep_events env fs i with ⟨_, h⟩ | ⟨hne, _⟩
  · rcases h with ⟨_, hev⟩ | ⟨content, _, hev⟩ <;> rw [hev] <;> exact List.mem_cons_self _ _
  · exact absurd hid hne

theorem syncStep_parse_fail {env : Env} {fs : FS} {i : Issue} (hid : i.id ≠ "")
    (hp : parseInt64 i.id = none) :
    Event.idParseError i ∈ (syncStep env fs i).2 ∧
      ∀ e ∈ (syncStep env fs i).2, isUpdateEvent e = false := by
  rcases syncStep_events env fs i with ⟨heq, _⟩ | ⟨_, h⟩
  · exact absurd heq hid
  · rcases h with ⟨_, hev⟩ | ⟨n, hn, _⟩
    · constructor
      · rw [hev]; exact List.mem_cons_self _ _
      · intro e he
        rw [hev] at he
        rcases List.mem_cons.mp he with rfl | he
        · rfl
        · exact (linkPhase_events env i 0 e he).2.1
    · rw [hp] at hn; cases hn

theorem syncStep_update_mem {env : Env} {fs : FS} {i : Issue} {n : Int} (hid : i.id ≠ "")
    (hp : parseInt64 i.id = some n) :
    updateEvent i n (updateResult env i n) ∈ (syncStep env fs i).2 := by
  rcases syncStep_events env fs i with ⟨heq, _⟩ | ⟨_, h⟩
  · exact absurd heq hid
  · rcases h with ⟨hn, _⟩ | ⟨m, hm, hev⟩
    · rw [hp] at hn; cases hn
    · rw [hp] at hm
      cases hm
      rw [hev]; exact List.mem_cons_self _ _

theorem syncStep_ne_nil (env : Env) (fs : FS) (i : Issue) : (syncStep env fs i).2 ≠ [] := by
  rcases syncStep_events env fs i with ⟨_, h⟩ | ⟨_, h⟩
  · rcases h with ⟨_, hev⟩ | ⟨c, _, hev⟩ <;> rw [hev] <;> exact List.cons_ne_nil _ _
  · rcases h with ⟨_, hev⟩ | ⟨n, _, hev⟩ <;> rw [hev] <;> exact List.cons_ne_nil _ _

theorem runIssues_cons (env : Env) (i : Issue) (rest : List Issue) (fs : FS) :
    runIssues env (i :: rest) fs =
      ((runIssues env rest (syncStep env fs i).1).1,
        (syncStep env fs i).2 ++ (runIssues env rest (syncStep env fs i).1).2) := rfl

theorem runIssues_trace (env : Env) :
    ∀ (l : List Issue) (fs : FS), ∃ traces : List (List Event),
      (runIssues env l fs).2 = traces.flatten ∧ traces.length = l.length ∧
      ∀ k (hk : k < traces.length) (hl : k < l.length),
        ∃ fsk, traces.get ⟨k, hk⟩ = (syncStep env fsk (l.get ⟨k, hl⟩)).2 := by
  intro l
  induction l with
  | nil => exact fun fs => ⟨[], by simp [runIssues], rfl, fun k hk _ => by cases hk⟩
  | cons i rest ih =>
    intro fs
    obtain ⟨traces, hjoin, hlen, hget⟩ := ih (syncStep env fs i).1
    refine ⟨(syncStep env fs i).2 :: traces, ?_, by simp [hlen], ?_⟩
    · rw [runIssues_cons]
      show (syncStep env fs i).2 ++ (runIssues env rest (syncStep env fs i).1).2 = _
      rw [hjoin]
      rfl
    · intro k hk hl
      cases k with
      | zero => exact ⟨fs, rfl⟩
      | succ k =>
        have hk' : k < traces.length := by simpa using hk
        have hl' : k < rest.length := by simpa using hl
        obtain ⟨fsk, hfsk⟩ := hget k hk' hl'
        exact ⟨fsk, hfsk⟩

theorem runIssues_no_create (env : Env) :
    ∀ (l : List Issue) (fs : FS), (∀ i ∈ l, i.id ≠ "") →
      ∀ e ∈ (runIssues env l fs).2, isCreateEvent e = false := by
  intro l
  induction l with
  | nil => intro fs _ e he; cases he
  | cons i rest ih =>
    intro fs hids e he
    rw [runIssues_cons] at he
    dsimp only at he
    rcases List.mem_append.mp he with h | h
    · exact syncStep_no_create_of_id_ne (hids i (List.mem_cons_self _ _)) e h
    · exact ih _ (fun j hj => hids j (List.mem_cons_of_mem i hj)) e h

theorem readIssueFiles_id (dir : String) (entries : List (String × String)) :
    ∀ i ∈ readIssueFiles dir entries, ∃ e ∈ entries, i.id = getFM (parseFrontMatter e.2) "id" := by
  intro i hi
  unfold readIssueFiles at hi
  obtain ⟨e, he, hei⟩ := List.mem_map.mp hi
  exact ⟨e, he, by rw [← hei]⟩


theorem replaceFirstId_of_found (n : Int) :
    ∀ (a : List String) (l : String) (b : List String),
      (∀ x ∈ a, beginsWith x "id:" = false) → beginsWith l "id:" = true →
      replaceFirstId n (a ++ l :: b) = some (a ++ idLine n :: b) := by
  intro a
  induction a with
  | nil =>
    intro l b _ hl
    simp only [List.nil_append, replaceFirstId, hl, if_pos]
  | cons x xs ih =>
    intro l b ha hl
    have hx : beginsWith x "id:" = false := ha x (List.mem_cons_self _ _)
    simp only [List.cons_append, replaceFirstId, hx, Bool.false_eq_true, if_false]
    rw [List.append_eq, ih l b (fun y hy => ha y (List.mem_cons_of_mem x hy)) hl]
    rfl

theorem replaceFirstId_of_none (n : Int) :
    ∀ ls : List String, (∀ x ∈ ls, beginsWith x "id:" = false) →
      replaceFirstId n ls = none := by
  intro ls
  induction ls with
  | nil => intro _; rfl
  | cons x xs ih =>
    intro h
    have hx := h x (List.mem_cons_self _ _)
    simp only [replaceFirstId, hx, Bool.false_eq_true, if_false]
    rw [ih (fun y hy => h y (List.mem_cons_of_mem x hy))]
    rfl

theorem rewriteId_replace (n : Int) (a : List String) (l : String) (b : List String)
    (ha : ∀ x ∈ a, beginsWith x "id:" = false) (hl : beginsWith l "id:" = true) :
    rewriteId (a ++ l :: b) n = a ++ idLine n :: b := by
  unfold rewriteId
  rw [replaceFirstId_of_found n a l b ha hl]

theorem findFMEndAux_cons (idx acc : Nat) (l : String) (ls : List String) :
    findFMEndAux idx acc (l :: ls) =
      if strTrim l == "---" then
        (if acc == 0 then findFMEndAux (idx + 1) idx ls else acc)
      else findFMEndAux (idx + 1) acc ls := rfl

theorem findFMEndAux_stable :
    ∀ (b : List String) (idx acc : Nat), acc ≠ 0 → findFMEndAux idx acc b = acc := by
  intro b
  induction b with
  | nil => intro idx acc _; rfl
  | cons l ls ih =>
    intro idx acc hacc
    rw [findFMEndAux_cons]
    by_cases hl : (strTrim l == "---") = true
    · rw [if_pos hl, if_neg (by simpa using hacc)]
    · rw [if_neg hl]
      exact ih _ _ hacc

theorem findFMEndAux_skip :
    ∀ (a : List String) (rest : List String) (idx : Nat),
      (∀ x ∈ a, ¬ strTrim x = "---") →
      findFMEndAux idx 0 (a ++ rest) = findFMEndAux (idx + a.length) 0 rest := by
  intro a
  induction a with
  | nil => intro rest idx _; rfl
  | cons x xs ih =>
    intro rest idx ha
    have hx : ¬ strTrim x == "---" := by
      simpa using ha x (List.mem_cons_self _ _)
    show findFMEndAux idx 0 (x :: (xs ++ rest)) = _
    rw [findFMEndAux_cons, if_neg hx]
    rw [ih rest (idx + 1) (fun y hy => ha y (List.mem_cons_of_mem x hy))]
    have harith : idx + 1 + xs.length = idx + (x :: xs).length := by
      simp [List.length_cons]
      omega
    rw [harith]

theorem findFMEnd_insert (h : String) (a : List String) (c : String) (b : List String)
    (hh : strTrim h = "---") (ha : ∀ x ∈ a, ¬ strTrim x = "---") (hc : strTrim c = "---") :
    findFMEnd (h :: a ++ c :: b) = a.length + 1 := by
  unfold findFMEnd
  show findFMEndAux 0 0 (h :: (a ++ c :: b)) = _
  have step1 : findFMEndAux 0 0 (h :: (a ++ c :: b)) = findFMEndAux 1 0 (a ++ c :: b) := by
    rw [findFMEndAux_cons, if_pos (by simp [hh]), if_pos (by simp)]
  rw [step1, findFMEndAux_skip a (c :: b) 1 ha]
  have step2 : findFMEndAux (1 + a.length) 0 (c :: b) =
      findFMEndAux (1 + a.length + 1) (1 + a.length) b := by
    rw [findFMEndAux_cons, if_pos (by simp [hc]), if_pos (by simp)]
  rw [step2, findFMEndAux_stable b _ _ (by omega)]
  omega

theorem rewriteId_insert (n : Int) (h : String) (a : List String) (c : String) (b : List String)
    (hh : strTrim h = "---") (ha : ∀ x ∈ a, ¬ strTrim x = "---") (hc : strTrim c = "---")
    (hnoid : ∀ x ∈ h :: a ++ c :: b, beginsWith x "id:" = false) :
    rewriteId (h :: a ++ c :: b) n = h :: a ++ idLine n :: c :: b := by
  unfold rewriteId
  rw [replaceFirstId_of_none n _ hnoid]
  rw [findFMEnd_insert h a c b hh ha hc]
  rw [if_neg (by simp)]
  have hlen : (h :: a).length = a.length + 1 := by simp
  show (h :: a ++ c :: b).take (a.length + 1) ++ idLine n :: (h :: a ++ c :: b).drop (a.length + 1)
      = h :: a ++ idLine n :: c :: b
  have h1 : (h :: a ++ c :: b).take (a.length + 1) = h :: a := by
    have := List.take_left (h :: a) (c :: b)
    rwa [hlen] at this
  have h2 : (h :: a ++ c :: b).drop (a.length + 1) = c :: b := by
    have := List.drop_left (h :: a) (c :: b)
    rwa [hlen] at this
  rw [h1, h2]

theorem rewriteId_append (n : Int) (ls : List String)
    (hnoid : ∀ x ∈ ls, beginsWith x "id:" = false)
    (hnd : ∀ x ∈ ls, ¬ strTrim x = "---") :
    rewriteId ls n = ls ++ [idLine n] := by
  unfold rewriteId
  rw [replaceFirstId_of_none n _ hnoid]
  have : findFMEnd ls = 0 := by
    unfold findFMEnd
    have := findFMEndAux_skip ls [] 0 hnd
    simpa using this
  rw [this]
  rfl

theorem idLine_mem_replaceFirstId (n : Int) :
    ∀ (ls r : List String), replaceFirstId n ls = some r → idLine n ∈ r := by
  intro ls
  induction ls with
  | nil => intro r h; cases h
  | cons x xs ih =>
    intro r h
    unfold replaceFirstId at h
    by_cases hx : beginsWith x "id:"
    · rw [if_pos hx] at h
      cases h
      exact List.mem_cons_self _ _
    · rw [if_neg hx] at h
      cases hr : replaceFirstId n xs with
      | none => rw [hr] at h; cases h
      | some r' =>
        rw [hr] at h
        cases h
        exact List.mem_cons_of_mem x (ih r' hr)

theorem idLine_mem_rewriteId (ls : List String) (n : Int) : idLine n ∈ rewriteId ls n := by
  unfold rewriteId
  cases hr : replaceFirstId n ls with
  | some r => exact idLine_mem_replaceFirstId n ls r hr
  | none =>
    by_cases hz : findFMEnd ls == 0
    · rw [if_pos hz]
      exact List.mem_append_right _ (List.mem_singleton.mpr rfl)
    · rw [if_neg hz]
      exact List.mem_append_right _ (List.mem_cons_self _ _)

theorem append_pos_lt {A B : List Issue} (P : Issue → Bool)
    (hA : ∀ x ∈ A, P x = false) (hB : ∀ x ∈ B, P x = true)
    (p q : Fin (A ++ B).length) (hp : P ((A ++ B).get p) = true)
    (hq : P ((A ++ B).get q) = false) : (q : Nat) < (p : Nat) := by
  have hpA : A.length ≤ (p : Nat) := by
    by_contra h
    have hlt : (p : Nat) < A.length := Nat.lt_of_not_le h
    have hmem : (A ++ B).get p ∈ A := by
      rw [List.get_eq_getElem, List.getElem_append_left hlt]
      exact List.getElem_mem hlt
    rw [hA _ hmem] at hp
    cases hp
  have hqA : (q : Nat) < A.length := by
    by_contra h
    have hge : A.length ≤ (q : Nat) := Nat.le_of_not_lt h
    have hlt : (q : Nat) - A.length < B.length := by
      have h2 := q.2
      have hlen : (A ++ B).length = A.length + B.length := by simp
      omega
    have hmem : (A ++ B).get q ∈ B := by
      rw [List.get_eq_getElem, List.getElem_append_right hge]
      exact List.getElem_mem hlt
    rw [hB _ hmem] at hq
    cases hq
  omega

theorem sort_epicsLast (issues : List Issue) :
    ∀ p q : Fin (SortIssuesByDependency issues).length,
      isEpic ((SortIssuesByDependency issues).get p) = true →
      isEpic ((SortIssuesByDependency issues).get q) = false → (q : Nat) < (p : Nat) := by
  obtain ⟨A, B, hAB, hA, hB⟩ := sort_epicSplit issues
  rw [hAB]
  exact append_pos_lt isEpic hA hB

theorem createEvent_typed {i : Issue} (r : IssueResult) (h : ¬ strTrim i.type = "") :
    createEvent i r = Event.createTypedCall i r := by
  simp [createEvent, h]

theorem createEvent_untyped {i : Issue} (r : IssueResult) (h : strTrim i.type = "") :
    createEvent i r = Event.createUntypedCall i r := by
  simp [createEvent, h]

theorem createResult_typed {env : Env} {i : Issue} (h : ¬ strTrim i.type = "") :
    createResult env i = env.createTyped i := by
  simp [createResult, h]

theorem createResult_untyped {env : Env} {i : Issue} (h : strTrim i.type = "") :
    createResult env i = env.createUntyped i := by
  simp [createResult, h]

theorem syncStep_write_none {env : Env} {fs : FS} {i : Issue} (hid : i.id = "")
    (hread : fsRead fs (pathJoin i.path i.fileName) = none) :
    ∀ e ∈ (syncStep env fs i).2, isWriteEvent e = false := by
  intro e he
  rcases syncStep_events env fs i with ⟨_, h⟩ | ⟨hne, _⟩
  · rcases h with ⟨_, hev⟩ | ⟨content, hc, _⟩
    · rw [hev] at he
      rcases List.mem_cons.mp he with rfl | he
      · exact isWriteEvent_createEvent i _
      · simp only [List.mem_singleton] at he
        subst he; rfl
    · rw [hread] at hc; cases hc
  · exact absurd hid hne

theorem syncStep_write_some {env : Env} {fs : FS} {i : Issue} {content : String}
    (hid : i.id = "")
    (hread : fsRead fs (pathJoin i.path i.fileName) = some content) :
    Event.fileWrite (pathJoin i.path i.fileName)
        (strUnlines (rewriteId (strLines content) (createResult env i).number)) ∈
      (syncStep env fs i).2 := by
  rcases syncStep_events env fs i with ⟨_, h⟩ | ⟨hne, _⟩
  · rcases h with ⟨hc, _⟩ | ⟨content2, hc, hev⟩
    · rw [hread] at hc; cases hc
    · rw [hread] at hc
      cases hc
      rw [hev]
      exact List.mem_cons_of_mem _ (List.mem_cons_self _ _)
  · exact absurd hid hne

theorem linkPhase_node_error {env : Env} {i : Issue} {n : Int} {e : String}
    (hproj : ¬ i.project = "") (hres : resolveNodeGuard env n = Except.error e) :
    linkPhase env i n = [Event.resolveNodeError e] := by
  unfold linkPhase
  rw [if_neg (by simp [hproj]), hres]

theorem linkPhase_project_error {env : Env} {i : Issue} {n : Int} {nid e : String}
    (hproj : ¬ i.project = "") (hres : resolveNodeGuard env n = Except.ok nid)
    (hpr : env.resolveProject i.project = Except.error e) :
    Event.resolveProjectError e ∈ linkPhase env i n ∧
      Event.linkRequest nid "" ∈ linkPhase env i n := by
  unfold linkPhase
  rw [if_neg (by simp [hproj]), hres, hpr]
  constructor
  · exact List.mem_append_left _ (List.mem_singleton.mpr rfl)
  · exact List.mem_append_right _ (List.mem_cons_self _ _)

theorem linkPhase_link_error {env : Env} {i : Issue} {n : Int} {nid msg : String}
    (hproj : ¬ i.project = "") (hres : resolveNodeGuard env n = Except.ok nid)
    (hadd : env.addToProject nid (projectNodeOf (env.resolveProject i.project)) = some msg) :
    Event.linkError msg ∈ linkPhase env i n := by
  unfold linkPhase
  rw [if_neg (by simp [hproj]), hres]
  show Event.linkError msg ∈
    projErrEvents (env.resolveProject i.project) ++
      Event.linkRequest nid (projectNodeOf (env.resolveProject i.project)) ::
        linkErrEvents (env.addToProject nid (projectNodeOf (env.resolveProject i.project)))
  rw [hadd]
  exact List.mem_append_right _
    (List.mem_cons_of_mem _ (List.mem_singleton.mpr rfl))

theorem createIssues_no_create (env : Env) (fs : FS) (issues : List Issue)
    (hids : ∀ i ∈ issues, ¬ i.id = "") :
    ∀ e ∈ (CreateIssues env fs issues).2, isCreateEvent e = false := by
  unfold CreateIssues
  apply runIssues_no_create
  intro i hi
  exact hids i ((sortIssues_perm issues).mem_iff.mp hi)


/-! ### Claim theorems -/

/-- Claim C1, counterexample: the claim quantifies over all acyclic collections,
including ones where an epic is the parent of a regular issue.  On the two-issue
input `[Epic1, Task1←Epic1]` the parent graph is acyclic (a topological rank
exists), yet the output `[Task1, Epic1]` places the child before its parent,
because epics are deferred to the trailing pass. -/
theorem C1_epic_parent_counterexample :
    HasParentRank c1Input ∧ ¬ ChildAfterParents (SortIssuesByDependency c1Input) :=
  ⟨⟨fun i => if isEpic i then 0 else 1, by decide⟩, by decide⟩

/-- Claim C1, amended: for collections whose parent graph is acyclic, whose
normalised titles are pairwise distinct, in which every declared parent title
matches some issue, and in which no non-epic issue has an epic-typed parent,
every issue appears strictly after every issue whose title (case-insensitively,
trimmed) matches its parent field in the output of `SortIssuesByDependency`. -/
theorem C1_parent_before_child (issues : List Issue) (hrank : HasParentRank issues)
    (hnodup : TitlesNodup issues) (hclosed : ParentClosed issues)
    (hepic : NoEpicParentOfRegular issues) :
    ChildAfterParents (SortIssuesByDependency issues) :=
  sort_childAfterParents hrank hnodup hclosed hepic

/-- Claim C1, witness: the amended theorem applied to the concrete two-issue
chain `[B←A, A]`, with an explicit topological rank. -/
theorem C1_parent_before_child_witness :
    TitlesNodup c1wInput ∧ ParentClosed c1wInput ∧ NoEpicParentOfRegular c1wInput ∧
      ChildAfterParents (SortIssuesByDependency c1wInput) :=
  ⟨by decide, by decide, by decide,
    C1_parent_before_child c1wInput
      ⟨fun i => if normKey i.title == "a" then 0 else 1, by decide⟩
      (by decide) (by decide) (by decide)⟩

/-- Claim C2: for every input collection, the output of
`SortIssuesByDependency` is a permutation of the input — no issue is dropped
(orphans included) and none is duplicated. -/
theorem C2_sort_is_permutation (issues : List Issue) :
    (SortIssuesByDependency issues).Perm issues :=
  sortIssues_perm issues

/-- Claim C3: in the output of `SortIssuesByDependency`, every position
holding an epic-typed issue (trimmed, case-insensitive match on "epic") comes
strictly after every position holding a non-epic issue, regardless of the
input order. -/
theorem C3_epics_after_regulars (issues : List Issue)
    (p q : Fin (SortIssuesByDependency issues).length)
    (hp : isEpic ((SortIssuesByDependency issues).get p) = true)
    (hq : isEpic ((SortIssuesByDependency issues).get q) = false) :
    (q : Nat) < (p : Nat) :=
  sort_epicsLast issues p q hp hq

/-- Claim C3, witness: on `[Epic1, Task1←Epic1]` the epic ends at position 1,
after the regular issue at position 0. -/
theorem C3_epics_after_regulars_witness :
    isEpic ((SortIssuesByDependency c1Input).get ⟨1, by decide⟩) = true ∧
      isEpic ((SortIssuesByDependency c1Input).get ⟨0, by decide⟩) = false ∧
      (0 : Nat) < 1 :=
  ⟨by decide, by decide,
    C3_epics_after_regulars c1Input ⟨1, by decide⟩ ⟨0, by decide⟩ (by decide) (by decide)⟩

/-- Claim C4: in the synchronizer loop, an issue with empty `id` triggers
exactly a creation — the typed operation when the trimmed type is non-empty,
the untyped one otherwise — and never an update; an issue with non-empty `id`
never triggers a creation, and when its `id` fails integer parsing an error is
recorded and no update is invoked either; when parsing succeeds the update
operation is invoked. -/
theorem C4_create_vs_update (env : Env) (fs : FS) (i : Issue) :
    (i.id = "" →
      (¬ strTrim i.type = "" →
        Event.createTypedCall i (env.createTyped i) ∈ (syncStep env fs i).2) ∧
      (strTrim i.type = "" →
        Event.createUntypedCall i (env.createUntyped i) ∈ (syncStep env fs i).2) ∧
      (∀ e ∈ (syncStep env fs i).2, isUpdateEvent e = false)) ∧
    (¬ i.id = "" →
      (∀ e ∈ (syncStep env fs i).2, isCreateEvent e = false) ∧
      (parseInt64 i.id = none →
        Event.idParseError i ∈ (syncStep env fs i).2 ∧
          ∀ e ∈ (syncStep env fs i).2, isUpdateEvent e = false) ∧
      (∀ n, parseInt64 i.id = some n →
        updateEvent i n (updateResult env i n) ∈ (syncStep env fs i).2)) := by
  constructor
  · intro hid
    refine ⟨?_, ?_, syncStep_no_update_of_id_empty hid⟩
    · intro ht
      have h := @syncStep_create_mem env fs i hid
      rwa [createResult_typed ht, createEvent_typed _ ht] at h
    · intro ht
      have h := @syncStep_create_mem env fs i hid
      rwa [createResult_untyped ht, createEvent_untyped _ ht] at h
  · intro hid
    exact ⟨syncStep_no_create_of_id_ne hid, fun hp => syncStep_parse_fail hid hp,
      fun n hn => syncStep_update_mem hid hn⟩

/-- Claim C4, witness: a typed issue with empty id goes through the
typed-creation operation. -/
theorem C4_create_vs_update_witness :
    iTyped.id = "" ∧ ¬ strTrim iTyped.type = "" ∧
      Event.createTypedCall iTyped (envOk.createTyped iTyped) ∈
        (syncStep envOk fs0 iTyped).2 :=
  ⟨rfl, by decide, ((C4_create_vs_update envOk fs0 iTyped).1 rfl).1 (by decide)⟩

/-- Claim C5, counterexample: the claim says the front matter is rewritten
exactly when the creation succeeded.  With an oracle whose creation fails
(`err = some "boom"`, zero number), the file is still rewritten — the loop
never consults `Err` before the write-back, and writes `id: 0`. -/
theorem C5_writeback_counterexample :
    (createResult envCreateFails iPlain).err = some "boom" ∧
      Event.fileWrite "d/f.md" "x\nid: 0" ∈ (syncStep envCreateFails fs0 iPlain).2 :=
  ⟨by decide, by decide⟩

/-- Claim C5, amended: for every issue taken through the creation branch, the
source file is rewritten exactly when the file read succeeds, regardless of
whether the creation succeeded, with the returned number; the rewrite replaces
the first existing `id:`-line in place; otherwise, when the file opens with a
`---` delimiter line and a second delimiter follows, the id line is inserted
just inside the closing delimiter; when the file has no delimiter lines at all
it is appended at the end. -/
theorem C5_writeback_rules :
    (∀ (env : Env) (fs : FS) (i : Issue), i.id = "" →
      (fsRead fs (pathJoin i.path i.fileName) = none →
        ∀ e ∈ (syncStep env fs i).2, isWriteEvent e = false) ∧
      (∀ content, fsRead fs (pathJoin i.path i.fileName) = some content →
        Event.fileWrite (pathJoin i.path i.fileName)
            (strUnlines (rewriteId (strLines content) (createResult env i).number)) ∈
          (syncStep env fs i).2)) ∧
    (∀ (n : Int) (a : List String) (l : String) (b : List String),
      (∀ x ∈ a, beginsWith x "id:" = false) → beginsWith l "id:" = true →
      rewriteId (a ++ l :: b) n = a ++ idLine n :: b) ∧
    (∀ (n : Int) (h : String) (a : List String) (c : String) (b : List String),
      strTrim h = "---" → (∀ x ∈ a, ¬ strTrim x = "---") → strTrim c = "---" →
      (∀ x ∈ h :: a ++ c :: b, beginsWith x "id:" = false) →
      rewriteId (h :: a ++ c :: b) n = h :: a ++ idLine n :: c :: b) ∧
    (∀ (n : Int) (ls : List String),
      (∀ x ∈ ls, beginsWith x "id:" = false) → (∀ x ∈ ls, ¬ strTrim x = "---") →
      rewriteId ls n = ls ++ [idLine n]) :=
  ⟨fun _ _ _ hid => ⟨fun hread => syncStep_write_none hid hread,
      fun _ hread => syncStep_write_some hid hread⟩,
    fun n a l b => rewriteId_replace n a l b,
    fun n h a c b => rewriteId_insert n h a c b,
    fun n ls => rewriteId_append n ls⟩

/-- Claim C5, witness: the write-back event on a concrete readable file, and
the insertion rule on a concrete delimited front matter. -/
theorem C5_writeback_rules_witness :
    Event.fileWrite (pathJoin iPlain.path iPlain.fileName)
        (strUnlines (rewriteId (strLines "x") (createResult envOk iPlain).number)) ∈
      (syncStep envOk fs0 iPlain).2 ∧
      rewriteId ["---", "t: A", "---"] 5 = ["---", "t: A", idLine 5, "---"] :=
  ⟨(C5_writeback_rules.1 envOk fs0 iPlain rfl).2 "x" (by decide),
    C5_writeback_rules.2.2.1 5 "---" ["t: A"] "---" [] (by decide) (by decide) (by decide)
      (by decide)⟩

/-- Claim C6, counterexample: a directory with one file `"x"` (no front-matter
delimiters).  The first run creates the issue and writes a non-empty id back
into the file (`x\nid: 7`), but the id lands outside any front-matter block,
so the second run over the same directory parses an empty id and invokes a
creation again — a duplicate create despite the write-back. -/
theorem C6_idempotence_counterexample :
    Event.fileWrite "d/f.md" "x\nid: 7" ∈
        (CreateIssues envOk c6Fs (readIssueFiles "d" c6Entries)).2 ∧
      (CreateIssues envOk c6Fs (readIssueFiles "d" c6Entries)).1 = [("d/f.md", "x\nid: 7")] ∧
      (CreateIssues envOk [("d/f.md", "x\nid: 7")]
          (readIssueFiles "d" [("f.md", "x\nid: 7")])).2.any isCreateEvent = true :=
  ⟨by decide, by decide, by decide⟩

/-- Claim C6, amended: if after the first run every file of the directory
parses to a front matter whose `id` value is non-empty (which the write-back
guarantees only when it lands inside the front-matter block), then a second
run over that directory takes the update branch for every issue and never
invokes a creation operation. -/
theorem C6_second_run_only_updates (env : Env) (dir : String)
    (entries : List (String × String)) (fs : FS)
    (hid : ∀ e ∈ entries, ¬ getFM (parseFrontMatter e.2) "id" = "") :
    (∀ i ∈ readIssueFiles dir entries, ¬ i.id = "") ∧
      ∀ ev ∈ (CreateIssues env fs (readIssueFiles dir entries)).2,
        isCreateEvent ev = false := by
  have hids : ∀ i ∈ readIssueFiles dir entries, ¬ i.id = "" := by
    intro i hi
    obtain ⟨e, he, heq⟩ := readIssueFiles_id dir entries i hi
    rw [heq]
    exact hid e he
  exact ⟨hids, createIssues_no_create env fs _ hids⟩

/-- Claim C6, witness: a directory whose single file carries `id: 3` inside
its front matter produces no creation events. -/
theorem C6_second_run_only_updates_witness :
    (∀ e ∈ c6GoodEntries, ¬ getFM (parseFrontMatter e.2) "id" = "") ∧
      ∀ ev ∈ (CreateIssues envOk [] (readIssueFiles "d" c6GoodEntries)).2,
        isCreateEvent ev = false :=
  ⟨by decide, (C6_second_run_only_updates envOk "d" c6GoodEntries [] (by decide)).2⟩

/-- Claim C7, counterexample: the claim says that after a failed project-id
resolution no link request is made for that issue.  With an oracle whose
project resolution fails, the failure is reported but the link request is
still issued, with the zero-valued (empty) project node id. -/
theorem C7_linkage_counterexample :
    envProjectFails.resolveProject iProjEx.project = Except.error "proj boom" ∧
      Event.resolveProjectError "proj boom" ∈ (syncStep envProjectFails [] iProjEx).2 ∧
      Event.linkRequest "ISSUE_NODE" "" ∈ (syncStep envProjectFails [] iProjEx).2 :=
  ⟨rfl, by decide, by decide⟩

/-- Claim C7, amended: in the project-linkage phase, a failed issue-node
resolution is reported and ends that issue's linkage (no link request); a
failed project resolution is reported but the link request is still made with
the empty project id; a failed link request is reported; and no failure aborts
the batch — the run's event trace is the concatenation of one non-empty
segment per sorted issue. -/
theorem C7_linkage_error_handling :
    (∀ (env : Env) (i : Issue) (n : Int) (e : String), ¬ i.project = "" →
      resolveNodeGuard env n = Except.error e →
      linkPhase env i n = [Event.resolveNodeError e]) ∧
    (∀ (env : Env) (i : Issue) (n : Int) (nid e : String), ¬ i.project = "" →
      resolveNodeGuard env n = Except.ok nid →
      env.resolveProject i.project = Except.error e →
      Event.resolveProjectError e ∈ linkPhase env i n ∧
        Event.linkRequest nid "" ∈ linkPhase env i n) ∧
    (∀ (env : Env) (i : Issue) (n : Int) (nid msg : String), ¬ i.project = "" →
      resolveNodeGuard env n = Except.ok nid →
      env.addToProject nid (projectNodeOf (env.resolveProject i.project)) = some msg →
      Event.linkError msg ∈ linkPhase env i n) ∧
    (∀ (env : Env) (fs : FS) (issues : List Issue), ∃ traces : List (List Event),
      (CreateIssues env fs issues).2 = traces.flatten ∧
      traces.length = (SortIssuesByDependency issues).length ∧
      ∀ t ∈ traces, t ≠ []) := by
  refine ⟨fun env i n e hproj hres => linkPhase_node_error hproj hres,
    fun env i n nid e hproj hres hpr => linkPhase_project_error hproj hres hpr,
    fun env i n nid msg hproj hres hadd => linkPhase_link_error hproj hres hadd, ?_⟩
  intro env fs issues
  obtain ⟨traces, hjoin, hlen, hget⟩ := runIssues_trace env (SortIssuesByDependency issues) fs
  refine ⟨traces, hjoin, hlen, ?_⟩
  intro t ht
  obtain ⟨k, hk, hkt⟩ := List.mem_iff_getElem.mp ht
  have hl : k < (SortIssuesByDependency issues).length := by omega
  obtain ⟨fsk, hfsk⟩ := hget k hk hl
  rw [← hkt]
  rw [show traces[k] = traces.get ⟨k, hk⟩ from (List.get_eq_getElem traces ⟨k, hk⟩).symm, hfsk]
  exact syncStep_ne_nil env fsk _

/-- Claim C7, witness: the amended project-failure and link-failure cases at
concrete oracles and issue. -/
theorem C7_linkage_error_handling_witness :
    ¬ iProjEx.project = "" ∧
      resolveNodeGuard envProjectFails 42 = Except.ok "ISSUE_NODE" ∧
      envProjectFails.resolveProject iProjEx.project = Except.error "proj boom" ∧
      Event.resolveProjectError "proj boom" ∈ linkPhase envProjectFails iProjEx 42 ∧
      Event.linkRequest "ISSUE_NODE" "" ∈ linkPhase envProjectFails iProjEx 42 ∧
      envLinkFails.addToProject "ISSUE_NODE"
          (projectNodeOf (envLinkFails.resolveProject iProjEx.project)) = some "link boom" ∧
      Event.linkError "link boom" ∈ linkPhase envLinkFails iProjEx 42 := by
  have h := C7_linkage_error_handling.2.1 envProjectFails iProjEx 42 "ISSUE_NODE" "proj boom"
    (by decide) rfl rfl
  have hlink := C7_linkage_error_handling.2.2.1 envLinkFails iProjEx 42 "ISSUE_NODE" "link boom"
    (by decide) rfl rfl
  exact ⟨by decide, rfl, rfl, h.1, h.2, rfl, hlink⟩

/-- Claim C8: `SortIssuesByDependency` terminates on every input: a pass that
resolves at least one issue strictly shrinks the remaining set, a pass that
resolves none leaves the state unchanged so the loop flushes and breaks, and
`remaining.length` passes are always a sufficient budget — any larger fuel
gives the same result as the canonical run. -/
theorem C8_sorter_terminates :
    (∀ sorted rem : List Issue, (onePass sorted rem).added = true →
      (onePass sorted rem).still.length < rem.length) ∧
    (∀ sorted rem : List Issue, (onePass sorted rem).added = false →
      onePass sorted rem = ⟨sorted, rem, false⟩) ∧
    (∀ (fuel : Nat) (sorted rem : List Issue), rem.length ≤ fuel →
      resolveLoop fuel sorted rem = resolveAll sorted rem) :=
  ⟨fun sorted rem => onePass_added_lt rem sorted,
    fun sorted rem => onePass_not_added rem sorted,
    fun _ _ _ h => resolveAll_eq_of_fuel h⟩

/-- Claim C8, witness: fuel sufficiency at a concrete orphan input. -/
theorem C8_sorter_terminates_witness :
    [orphanEx].length ≤ 5 ∧ resolveLoop 5 [] [orphanEx] = resolveAll [] [orphanEx] :=
  ⟨by decide, C8_sorter_terminates.2.2 5 [] [orphanEx] (by decide)⟩

/-- Claim C9 (implicit): the create command's run function accesses the first
element of the issue collection unconditionally after the optional project
stamping; on the empty collection this access is out of range (modelled as
`none`, where Go panics), and on every non-empty collection it is in bounds. -/
theorem C9_first_issue_indexing (pid : String) (issues : List Issue) :
    cmdRunFirstProject pid issues = none ↔ issues = [] := by
  unfold cmdRunFirstProject
  cases issues with
  | nil => split <;> simp
  | cons i rest => split <;> simp

/-- Claim C10 (implicit): in the creation branch, when the creation operation
returns an error (whose result carries the zero number, as the source's
operations do on every error path) and the file is readable, the file is
still rewritten, and the rewritten content carries the line `id: 0`. -/
theorem C10_failed_create_writes_zero (env : Env) (fs : FS) (i : Issue)
    (content msg : String) (hid : i.id = "") (herr : (createResult env i).err = some msg)
    (hnum : (createResult env i).number = 0)
    (hread : fsRead fs (pathJoin i.path i.fileName) = some content) :
    Event.fileWrite (pathJoin i.path i.fileName)
        (strUnlines (rewriteId (strLines content) 0)) ∈ (syncStep env fs i).2 ∧
      idLine 0 ∈ rewriteId (strLines content) 0 := by
  constructor
  · have h := @syncStep_write_some env fs i content hid hread
    rwa [hnum] at h
  · exact idLine_mem_rewriteId _ 0

/-- Claim C10, witness: the failed-creation write-back at a concrete oracle,
file system and issue. -/
theorem C10_failed_create_writes_zero_witness :
    (createResult envCreateFails iPlain).err = some "boom" ∧
      (createResult envCreateFails iPlain).number = 0 ∧
      Event.fileWrite (pathJoin iPlain.path iPlain.fileName)
          (strUnlines (rewriteId (strLines "x") 0)) ∈ (syncStep envCreateFails fs0 iPlain).2 ∧
      idLine 0 ∈ rewriteId (strLines "x") 0 := by
  have h := C10_failed_create_writes_zero envCreateFails fs0 iPlain "x" "boom" rfl (by decide)
    (by decide) (by decide)
  exact ⟨by decide, by decide, h.1, h.2⟩


end GIM
